import Mathlib

/-
Verification of the natural-language specification of the lilliput GC source set
against a shallow Lean embedding of its four files:

- src/hotspot/share/gc/g1/g1TaskQueueEntry.hpp            (work-descriptor encoding)
- src/hotspot/share/gc/g1/g1ConcurrentMarkObjArrayProcessor.cpp (array slicing)
- src/hotspot/share/gc/serial/markSweep.inline.hpp        (pointer adjustment)
- src/hotspot/share/gc/serial/genMarkSweep.cpp            (four-phase orchestration)

Machine words are modelled as Nat with explicit reduction modulo 2 ^ 64 where the
C++ code performs wrapping uintptr_t arithmetic.  Debug assertions are modelled as
Except errors when a claim is about their firing; otherwise the asserted fact is
proved as a theorem.  Heap side effects irrelevant to the claims (tracing, timing)
are omitted, mirroring the spec's stated scope.
-/

namespace G1TaskQueueEntry

/- Bit layout constants of g1TaskQueueEntry.hpp.  The encoded value _val is a
64-bit machine word:  |xx-------oop---------|-pow-|--chunk---|
                      0                    49     54        64  -/

def chunk_bits : Nat := 10

def pow_bits : Nat := 5

def word_bits : Nat := 64

def oop_bits : Nat := word_bits - chunk_bits - pow_bits

def oop_shift : Nat := 0

def pow_shift : Nat := oop_bits

def chunk_shift : Nat := oop_bits + pow_bits

def right_n_bits (n : Nat) : Nat := 2 ^ n - 1

def oop_extract_mask : Nat := right_n_bits oop_bits - 3

def chunk_pow_extract_mask : Nat := right_n_bits word_bits - right_n_bits oop_bits

def chunk_range_mask : Nat := right_n_bits chunk_bits

def pow_range_mask : Nat := right_n_bits pow_bits

def OopTag : Nat := 0

def NarrowOopTag : Nat := 1

def TagMask : Nat := 1

/-- G1TaskQueueEntry::chunk_size() = nth_bit(chunk_bits). -/
def chunk_size : Nat := 2 ^ chunk_bits

/-- G1TaskQueueEntry::max_addressable() = nth_bit(oop_bits). -/
def max_addressable : Nat := 2 ^ oop_bits

def decode (val : Nat) : Nat := val &&& oop_extract_mask

def decode_is_chunked (val : Nat) : Bool := val &&& chunk_pow_extract_mask != 0

def decode_chunk (val : Nat) : Nat := (val >>> chunk_shift) &&& chunk_range_mask

def decode_pow (val : Nat) : Nat := (val >>> pow_shift) &&& pow_range_mask

def encode_oop (p tag : Nat) : Nat := (p + tag) % 2 ^ word_bits

def encode_chunk (chunk : Nat) : Nat := (chunk <<< chunk_shift) % 2 ^ word_bits

def encode_pow (pow : Nat) : Nat := (pow <<< pow_shift) % 2 ^ word_bits

/-- Raw encoded word built by the chunked constructor G1TaskQueueEntry(oop, int, int)
before its assertions run. -/
def mkChunkedVal (o chunk pow : Nat) : Nat :=
  encode_oop o OopTag ||| encode_chunk chunk ||| encode_pow pow

/-- Raw encoded word built by the plain-reference constructor G1TaskQueueEntry(oop). -/
def mkOopVal (o : Nat) : Nat := encode_oop o OopTag

/-- The chunked constructor with its four assertions modelled as a fatal error:
assert(decode == o), assert(decode_chunk == chunk), assert(decode_pow == pow),
assert(decode_is_chunked). -/
def mkChunkedEntry (o chunk pow : Nat) : Except Unit Nat :=
  let enc := mkChunkedVal o chunk pow
  if decode enc = o ∧ decode_chunk enc = chunk ∧ decode_pow enc = pow ∧
      decode_is_chunked enc = true then
    Except.ok enc
  else
    Except.error ()

/-- Accessor to_oop() (modulo the oop cast, which is the identity on addresses). -/
def to_oop (val : Nat) : Nat := decode val

/-- Accessor chunk(). -/
def chunk (val : Nat) : Nat := decode_chunk val

/-- Accessor pow(). -/
def pow (val : Nat) : Nat := decode_pow val

/-- Query is_array_slice(). -/
def is_array_slice (val : Nat) : Bool := decode_is_chunked val

end G1TaskQueueEntry

namespace G1CMObjArrayProcessor

/- Embedding of g1ConcurrentMarkObjArrayProcessor.cpp.  A chunk descriptor is the
pair (chunk, pow) denoting array index interval [(chunk-1)*2^pow, chunk*2^pow).
The stride parameter is ObjArrayMarkingStride, asserted positive by the source.
Recursion is on pow, which the loops strictly decrease; with a positive stride
the loop guard (1 << pow) > stride is false at pow = 0, matching the base cases. -/

/-- The splitting loop of process_slice: starting from descriptor (c, p), returns
the list of pushed descriptors together with the final (chunk, pow) whose range
is then scanned directly.  Each iteration does pow--, chunk *= 2 and pushes
(chunk - 1, pow). -/
def sliceLoop (stride : Nat) : Nat → Nat → List (Nat × Nat) × (Nat × Nat)
  | c, 0 => ([], (c, 0))
  | c, p + 1 =>
    if stride < 2 ^ (p + 1) ∧ c * 2 < G1TaskQueueEntry.chunk_size then
      let r := sliceLoop stride (c * 2) p
      ((c * 2 - 1, p) :: r.1, r.2)
    else
      ([], (c, p + 1))

/-- G1CMObjArrayProcessor::process_slice on descriptor (c, p): the pushed
descriptors and the [from, to) range it scans itself. -/
def process_slice (stride c p : Nat) : List (Nat × Nat) × (Nat × Nat) :=
  let r := sliceLoop stride c p
  ((r.1), ((r.2.1 - 1) * 2 ^ r.2.2, r.2.1 * 2 ^ r.2.2))

/-- All [from, to) ranges eventually scanned when a worker processes descriptor
(c, p) with process_slice: the range process_slice scans itself, plus recursively
the ranges of every descriptor it pushes (each later consumed by process_slice). -/
def sliceScans (stride : Nat) : Nat → Nat → List (Nat × Nat)
  | c, 0 => [(c - 1, c)]
  | c, p + 1 =>
    if stride < 2 ^ (p + 1) ∧ c * 2 < G1TaskQueueEntry.chunk_size then
      sliceScans stride (c * 2 - 1) p ++ sliceScans stride (c * 2) p
    else
      [((c - 1) * 2 ^ (p + 1), c * 2 ^ (p + 1))]

/-- The main splitting loop of process_obj, from state (chunk, pow, last_idx):
returns the pushed descriptors and the final last_idx (start of the irregular
tail).  A left half whose end lies within the array is pushed and skipped over;
otherwise the loop keeps the smaller-index chunk and only halves the power. -/
def objLoop (stride len : Nat) : Nat → Nat → Nat → List (Nat × Nat) × Nat
  | _c, 0, last => ([], last)
  | c, p + 1, last =>
    if stride < 2 ^ (p + 1) ∧ c * 2 < G1TaskQueueEntry.chunk_size then
      if (c * 2 - 1) * 2 ^ p < len then
        let r := objLoop stride len (c * 2) p ((c * 2 - 1) * 2 ^ p)
        ((c * 2 - 1, p) :: r.1, r.2)
      else
        objLoop stride len (c * 2 - 1) p last
    else
      ([], last)

/-- Covering power computed at the top of process_obj: bits = log2i_graceful(len),
incremented when len is not an exact power of two (len >= 1; the processor is
only invoked on arrays above the slicing threshold). -/
def arrayBits (len : Nat) : Nat :=
  if len = 2 ^ Nat.log2 len then Nat.log2 len else Nat.log2 len + 1

/-- G1CMObjArrayProcessor::process_obj: the pushed descriptors and the final
last_idx.  When the covering power reaches 31 (the maximum representable
exponent), the overflow pre-split pushes (1, 30) by hand and the loop starts
from chunk = 2, pow = 30, last_idx = 2^30. -/
def process_obj (stride len : Nat) : List (Nat × Nat) × Nat :=
  let bits := arrayBits len
  if 31 ≤ bits then
    let r := objLoop stride len 2 30 (2 ^ 30)
    ((1, 30) :: r.1, r.2)
  else
    objLoop stride len 1 bits 0

/-- The multiset of ranges eventually scanned for one top-level process_obj call:
the eventual scans of every pushed descriptor, plus the irregular tail
[last_idx, len) that process_obj scans directly when non-empty. -/
def processObjScans (stride len : Nat) : List (Nat × Nat) :=
  let r := process_obj stride len
  (r.1.flatMap fun d => sliceScans stride d.1 d.2) ++
    (if r.2 < len then [(r.2, len)] else [])

/-- Number of ranges in the list that contain index i. -/
def coverCount (l : List (Nat × Nat)) (i : Nat) : Nat :=
  (l.filter fun r => decide (r.1 ≤ i ∧ i < r.2)).length

/-- The ranges in the list are non-empty, consecutive, and tile [a, b) exactly. -/
def isChain : List (Nat × Nat) → Nat → Nat → Prop
  | [], a, b => a = b
  | r :: rest, a, b => r.1 = a ∧ a < r.2 ∧ isChain rest r.2 b

end G1CMObjArrayProcessor

namespace MarkSweep

/-- Abstract heap state for MarkSweep::adjust_pointer: pointer slots (mem, with
value 0 modelling a null reference), per-object header mark bits, and the
forwarding map consulted for marked (= forwarded) objects. -/
structure AdjustHeap where
  mem : Nat → Nat
  markBit : Nat → Bool
  forwardee : Nat → Nat

/-- MarkSweep::adjust_pointer (markSweep.inline.hpp): load the slot; a null
reference is left alone; otherwise, when the referent's header is marked, the
slot is overwritten with the forwarding map's target.  No header is written. -/
def adjust_pointer (h : AdjustHeap) (p : Nat) : AdjustHeap :=
  let heap_oop := h.mem p
  if heap_oop = 0 then h
  else if h.markBit heap_oop then
    { h with mem := fun q => if q = p then h.forwardee heap_oop else h.mem q }
  else h

end MarkSweep

namespace GenMarkSweep

/-- Observable actions of GenMarkSweep::invoke_at_safepoint, in source order
(tracing and timing instrumentation omitted as out of scope). -/
inductive GCStep where
  | setRefProcessor
  | saveUsedRegions
  | allocateStacks
  | phase1Mark
  | phase2Plan
  | deactivateDerivedPointers
  | phase3Adjust
  | phase4Move
  | restoreMarks
  | saveMarks
  | deallocateStacks
  | flushStringDedup
  | clearIntoYounger
  | invalidateOrClear
  | pruneScavengableNmethods
  | clearRefProcessor
  | updateCapacityAndUsed
  | recordWholeHeapExamined
deriving DecidableEq

/-- GenMarkSweep::invoke_at_safepoint as the sequence of actions it performs,
parameterised by the young generation's post-collection used() occupancy, which
selects between clear_into_younger(old_gen) and invalidate_or_clear(old_gen). -/
def invoke_at_safepoint (youngUsedAfter : Nat) : List GCStep :=
  [GCStep.setRefProcessor, GCStep.saveUsedRegions, GCStep.allocateStacks,
    GCStep.phase1Mark, GCStep.phase2Plan, GCStep.deactivateDerivedPointers,
    GCStep.phase3Adjust, GCStep.phase4Move, GCStep.restoreMarks, GCStep.saveMarks,
    GCStep.deallocateStacks, GCStep.flushStringDedup] ++
  (if youngUsedAfter = 0 then [GCStep.clearIntoYounger] else [GCStep.invalidateOrClear]) ++
  [GCStep.pruneScavengableNmethods, GCStep.clearRefProcessor,
    GCStep.updateCapacityAndUsed, GCStep.recordWholeHeapExamined]

/-- Observable steps of GenMarkSweep::mark_sweep_phase1, in source order. -/
inductive MarkStep where
  | verifyClaimedMarksCleared
  | processStrongRoots
  | referenceProcessing
  | assertMarkingStackEmpty
  | weakProcessing
  | classUnloading
  | reportObjectCountAfterGC
deriving DecidableEq

/-- The step sequence of mark_sweep_phase1 when the marking stack is empty at
its assertion point. -/
def phase1Trace : List MarkStep :=
  [MarkStep.verifyClaimedMarksCleared, MarkStep.processStrongRoots,
    MarkStep.referenceProcessing, MarkStep.assertMarkingStackEmpty,
    MarkStep.weakProcessing, MarkStep.classUnloading,
    MarkStep.reportObjectCountAfterGC]

/-- The step prefix executed before the fatal abort when the marking stack is
non-empty at the assertion point. -/
def phase1AbortedTrace : List MarkStep :=
  [MarkStep.verifyClaimedMarksCleared, MarkStep.processStrongRoots,
    MarkStep.referenceProcessing, MarkStep.assertMarkingStackEmpty]

/-- GenMarkSweep::mark_sweep_phase1, parameterised by whether the marking stack
is empty when control reaches the emptiness assertion (which sits after root
processing and reference processing).  A non-empty stack there is a fatal
assertion failure, modelled as an error carrying the executed prefix. -/
def mark_sweep_phase1 (stackEmptyAtAssert : Bool) : Except (List MarkStep) (List MarkStep) :=
  if stackEmptyAtAssert then Except.ok phase1Trace
  else Except.error phase1AbortedTrace

/-- HeapWordSize on the 64-bit target. -/
def HeapWordSize : Nat := 8

/-- Byte size of a PreservedMark record (an oop plus a markWord). -/
def sizeofPreservedMark : Nat := 16

/-- Preserved-mark bookkeeping state set up by GenMarkSweep::allocate_stacks:
the fixed-capacity scratch fast path and the dynamically growable overflow
store. -/
structure PreservedState where
  preserved_count_max : Nat
  preserved_count : Nat
  preserved_overflow_stack : List (Nat × Nat)

/-- GenMarkSweep::allocate_stacks: a scratch block (of num_words heap words)
gives the fast path its capacity; absence of one is not an error and simply
leaves the fast-path capacity at zero. -/
def allocate_stacks (scratch : Option Nat) : PreservedState :=
  match scratch with
  | some num_words =>
    { preserved_count_max := num_words * HeapWordSize / sizeofPreservedMark,
      preserved_count := 0, preserved_overflow_stack := [] }
  | none =>
    { preserved_count_max := 0, preserved_count := 0, preserved_overflow_stack := [] }

/-- Modelled from the spec: MarkSweep::preserve_mark (markSweep.cpp, which is not
part of this source set).  Per the spec, preserved-mark records are stored in a
scratch region of bounded capacity, "with overflow spilling to a dynamically
growable store"; when no scratch is available the collector falls back to the
unbounded dynamic store. -/
def preserve_mark (st : PreservedState) (obj mark : Nat) : PreservedState :=
  if st.preserved_count < st.preserved_count_max then
    { st with preserved_count := st.preserved_count + 1 }
  else
    { st with preserved_overflow_stack := (obj, mark) :: st.preserved_overflow_stack }

end GenMarkSweep

/-! Helper lemmas. -/

/-- Bit extraction through a mask of the shape 2 ^ a * (2 ^ b - 1) (bits a..a+b-1)
equals shifting down, taking the remainder and shifting back up. -/
theorem land_two_pow_mul_mask (v a b : Nat) :
    v &&& 2 ^ a * (2 ^ b - 1) = v / 2 ^ a % 2 ^ b * 2 ^ a := by
  apply Nat.eq_of_testBit_eq
  intro i
  rw [Nat.testBit_land]
  rcases Nat.lt_or_ge i a with h | h
  · have h1 : (2 ^ a * (2 ^ b - 1)).testBit i = false := by
      rw [Nat.mul_comm, ← Nat.shiftLeft_eq, Nat.testBit_shiftLeft]
      simp [Nat.not_le.mpr h]
    have h2 : (v / 2 ^ a % 2 ^ b * 2 ^ a).testBit i = false := by
      rw [← Nat.shiftLeft_eq, Nat.testBit_shiftLeft]
      simp [Nat.not_le.mpr h]
    simp [h1, h2]
  · have h1 : (2 ^ a * (2 ^ b - 1)).testBit i = decide (i - a < b) := by
      rw [Nat.mul_comm, ← Nat.shiftLeft_eq, Nat.testBit_shiftLeft]
      simp [h, Nat.testBit_two_pow_sub_one]
    have h2 : (v / 2 ^ a % 2 ^ b * 2 ^ a).testBit i
        = (decide (i - a < b) && v.testBit i) := by
      rw [← Nat.shiftLeft_eq, Nat.testBit_shiftLeft]
      simp only [ge_iff_le, h, decide_True, Bool.true_and]
      rw [Nat.testBit_mod_two_pow, ← Nat.shiftRight_eq_div_pow, Nat.testBit_shiftRight]
      rw [Nat.add_sub_cancel' h]
    rw [h1, h2, Bool.and_comm]

/-- Bitwise or of a value below 2 ^ n with a multiple of 2 ^ n is plain addition. -/
theorem lor_two_pow_mul_eq_add (x y n : Nat) (h : x < 2 ^ n) :
    x ||| 2 ^ n * y = x + 2 ^ n * y := by
  apply Nat.eq_of_testBit_eq
  intro i
  rw [Nat.testBit_lor, Nat.add_comm, Nat.testBit_mul_pow_two_add _ h]
  have hsl : (2 ^ n * y).testBit i = (decide (i ≥ n) && y.testBit (i - n)) := by
    rw [Nat.mul_comm, ← Nat.shiftLeft_eq, Nat.testBit_shiftLeft]
  rcases Nat.lt_or_ge i n with hi | hi
  · rw [if_pos hi, hsl]
    simp [Nat.not_le.mpr hi]
  · rw [if_neg (Nat.not_lt.mpr hi), hsl]
    have hx : x.testBit i = false :=
      Nat.testBit_lt_two_pow (Nat.lt_of_lt_of_le h (Nat.pow_le_pow_right (by norm_num) hi))
    simp [hx, hi]

namespace G1TaskQueueEntry

theorem decode_eq_arith (v : Nat) : decode v = v / 2 ^ 2 % 2 ^ 47 * 2 ^ 2 := by
  have hm : oop_extract_mask = 2 ^ 2 * (2 ^ 47 - 1) := by decide
  rw [decode, hm, land_two_pow_mul_mask]

theorem decode_chunk_eq_arith (v : Nat) : decode_chunk v = v / 2 ^ 54 % 2 ^ 10 := by
  have hm : chunk_range_mask = 2 ^ 0 * (2 ^ 10 - 1) := by decide
  have hs : chunk_shift = 54 := by decide
  rw [decode_chunk, hm, land_two_pow_mul_mask, hs, Nat.shiftRight_eq_div_pow]
  simp

theorem decode_pow_eq_arith (v : Nat) : decode_pow v = v / 2 ^ 49 % 2 ^ 5 := by
  have hm : pow_range_mask = 2 ^ 0 * (2 ^ 5 - 1) := by decide
  have hs : pow_shift = 49 := by decide
  rw [decode_pow, hm, land_two_pow_mul_mask, hs, Nat.shiftRight_eq_div_pow]
  simp

theorem chunked_mask_eq_arith (v : Nat) :
    v &&& chunk_pow_extract_mask = v / 2 ^ 49 % 2 ^ 15 * 2 ^ 49 := by
  have hm : chunk_pow_extract_mask = 2 ^ 49 * (2 ^ 15 - 1) := by decide
  rw [hm, land_two_pow_mul_mask]

/-- The raw chunked word is the plain sum of its three disjoint fields when each
field value fits its bit budget. -/
theorem mkChunkedVal_eq_add (o c p : Nat) (ho : o < 2 ^ 49) (hc : c < 2 ^ 10)
    (hp : p < 2 ^ 5) :
    mkChunkedVal o c p = o + 2 ^ 49 * p + 2 ^ 54 * c := by
  have hoop : encode_oop o OopTag = o := by
    have : o < 2 ^ word_bits := lt_of_lt_of_le ho (by norm_num [word_bits])
    simp [encode_oop, OopTag, Nat.mod_eq_of_lt this]
  have hchunk : encode_chunk c = 2 ^ 54 * c := by
    have h1 : c <<< chunk_shift = 2 ^ 54 * c := by
      rw [Nat.shiftLeft_eq, Nat.mul_comm]
      norm_num [chunk_shift, pow_bits, oop_bits, chunk_bits, word_bits]
    have h2 : 2 ^ 54 * c < 2 ^ word_bits := by
      have : 2 ^ 54 * c < 2 ^ 54 * 2 ^ 10 :=
        mul_lt_mul_of_pos_left hc (by norm_num)
      calc 2 ^ 54 * c < 2 ^ 54 * 2 ^ 10 := this
        _ = 2 ^ word_bits := by norm_num [word_bits]
    rw [encode_chunk, h1, Nat.mod_eq_of_lt h2]
  have hpow : encode_pow p = 2 ^ 49 * p := by
    have h1 : p <<< pow_shift = 2 ^ 49 * p := by
      rw [Nat.shiftLeft_eq, Nat.mul_comm]
      norm_num [pow_shift, pow_bits, oop_bits, chunk_bits, word_bits]
    have h2 : 2 ^ 49 * p < 2 ^ word_bits := by
      have : 2 ^ 49 * p < 2 ^ 49 * 2 ^ 5 :=
        mul_lt_mul_of_pos_left hp (by norm_num)
      calc 2 ^ 49 * p < 2 ^ 49 * 2 ^ 5 := this
        _ ≤ 2 ^ word_bits := by norm_num [word_bits]
    rw [encode_pow, h1, Nat.mod_eq_of_lt h2]
  rw [mkChunkedVal, hoop, hchunk, hpow]
  rw [Nat.lor_assoc, Nat.lor_comm (2 ^ 54 * c) (2 ^ 49 * p), ← Nat.lor_assoc]
  have hsum : o + 2 ^ 49 * p < 2 ^ 54 := by
    have : 2 ^ 49 * p ≤ 2 ^ 49 * 31 := Nat.mul_le_mul_left _ (by omega)
    omega
  rw [lor_two_pow_mul_eq_add o p 49 ho, lor_two_pow_mul_eq_add _ c 54 hsum]

end G1TaskQueueEntry

namespace G1TaskQueueEntry

/-- Claim C2: for every (array, chunk, pow) within the encoding's bit budget
(array address below 2 ^ 49 with the two tag bits clear, 1 <= chunk < 1024,
0 <= pow < 32), constructing an entry from the triple and reading to_oop,
chunk and pow reproduces the identical triple with is_array_slice true, and the
constructor's assertions pass; a plain reference within the same address budget
round-trips identically with is_array_slice false. -/
theorem roundtrip (o c p : Nat) (ho : o < 2 ^ 49) (hal : o % 4 = 0)
    (hc1 : 1 ≤ c) (hc : c < 1024) (hp : p < 32) :
    (to_oop (mkChunkedVal o c p) = o ∧ chunk (mkChunkedVal o c p) = c ∧
      pow (mkChunkedVal o c p) = p ∧ is_array_slice (mkChunkedVal o c p) = true ∧
      mkChunkedEntry o c p = Except.ok (mkChunkedVal o c p)) ∧
    (to_oop (mkOopVal o) = o ∧ is_array_slice (mkOopVal o) = false) := by
  have hv : mkChunkedVal o c p = o + 2 ^ 49 * p + 2 ^ 54 * c :=
    mkChunkedVal_eq_add o c p ho (by omega) (by omega)
  have h1 : decode (mkChunkedVal o c p) = o := by
    rw [decode_eq_arith, hv]; omega
  have h2 : decode_chunk (mkChunkedVal o c p) = c := by
    rw [decode_chunk_eq_arith, hv]; omega
  have h3 : decode_pow (mkChunkedVal o c p) = p := by
    rw [decode_pow_eq_arith, hv]; omega
  have h4 : decode_is_chunked (mkChunkedVal o c p) = true := by
    rw [decode_is_chunked]
    have hmask : mkChunkedVal o c p &&& chunk_pow_extract_mask ≠ 0 := by
      rw [chunked_mask_eq_arith, hv]
      have h49 : (o + 2 ^ 49 * p + 2 ^ 54 * c) / 2 ^ 49 = p + 32 * c := by omega
      rw [h49]
      have : (p + 32 * c) % 2 ^ 15 = p + 32 * c := Nat.mod_eq_of_lt (by omega)
      rw [this]
      positivity
    simpa using hmask
  have hok : mkChunkedEntry o c p = Except.ok (mkChunkedVal o c p) := by
    simp only [mkChunkedEntry]
    rw [if_pos ⟨h1, h2, h3, h4⟩]
  have hmk : mkOopVal o = o := by
    have : o < 2 ^ word_bits := lt_of_lt_of_le ho (by norm_num [word_bits])
    simp [mkOopVal, encode_oop, OopTag, Nat.mod_eq_of_lt this]
  have h5 : decode (mkOopVal o) = o := by
    rw [decode_eq_arith, hmk]; omega
  have h6 : decode_is_chunked (mkOopVal o) = false := by
    rw [decode_is_chunked]
    have hmask : mkOopVal o &&& chunk_pow_extract_mask = 0 := by
      rw [chunked_mask_eq_arith, hmk]
      have : o / 2 ^ 49 = 0 := Nat.div_eq_of_lt ho
      rw [this]
      norm_num
    simp [hmask]
  exact ⟨⟨h1, h2, h3, h4, hok⟩, h5, h6⟩

/-- Witness for roundtrip at the concrete triple (8, 3, 5). -/
theorem roundtrip_witness :
    (to_oop (mkChunkedVal 8 3 5) = 8 ∧ chunk (mkChunkedVal 8 3 5) = 3 ∧
      pow (mkChunkedVal 8 3 5) = 5 ∧ is_array_slice (mkChunkedVal 8 3 5) = true ∧
      mkChunkedEntry 8 3 5 = Except.ok (mkChunkedVal 8 3 5)) ∧
    (to_oop (mkOopVal 8) = 8 ∧ is_array_slice (mkOopVal 8) = false) :=
  roundtrip 8 3 5 (by norm_num) (by norm_num) (by norm_num) (by norm_num) (by norm_num)

/-- Claim C8: constructing a chunked entry whose pow does not fit the 5-bit field
or whose chunk does not fit the 10-bit field trips a constructor assertion
(fatal abort, modelled as an error); conversely any entry the constructor does
produce decodes to exactly the chunk and pow it was given, never to a silently
truncated or wrapped value. -/
theorem chunked_ctor_validation (o c p : Nat) :
    ((32 ≤ p ∨ 1024 ≤ c) → mkChunkedEntry o c p = Except.error ()) ∧
    (∀ v, mkChunkedEntry o c p = Except.ok v → chunk v = c ∧ pow v = p) := by
  constructor
  · intro hout
    simp only [mkChunkedEntry]
    rw [if_neg]
    rintro ⟨-, h2, h3, -⟩
    have hpbound : decode_pow (mkChunkedVal o c p) < 32 := by
      rw [decode_pow_eq_arith]; omega
    have hcbound : decode_chunk (mkChunkedVal o c p) < 1024 := by
      rw [decode_chunk_eq_arith]; omega
    omega
  · intro v hv
    by_cases hcond : decode (mkChunkedVal o c p) = o ∧
        decode_chunk (mkChunkedVal o c p) = c ∧
        decode_pow (mkChunkedVal o c p) = p ∧
        decode_is_chunked (mkChunkedVal o c p) = true
    · simp only [mkChunkedEntry] at hv
      rw [if_pos hcond] at hv
      have hveq : v = mkChunkedVal o c p := (Except.ok.inj hv).symm
      exact ⟨hveq ▸ hcond.2.1, hveq ▸ hcond.2.2.1⟩
    · simp only [mkChunkedEntry] at hv
      rw [if_neg hcond] at hv
      exact absurd hv (by simp)

/-- Witness for chunked_ctor_validation: pow = 32 overflows the 5-bit field and
the constructor aborts. -/
theorem chunked_ctor_validation_witness :
    mkChunkedEntry 0 1 32 = Except.error () :=
  (chunked_ctor_validation 0 1 32).1 (Or.inl (by norm_num))

end G1TaskQueueEntry

namespace G1CMObjArrayProcessor

theorem isChain_append {l1 l2 : List (Nat × Nat)} {a b c : Nat}
    (h1 : isChain l1 a b) (h2 : isChain l2 b c) : isChain (l1 ++ l2) a c := by
  induction l1 generalizing a with
  | nil =>
    have hab : a = b := h1
    rw [List.nil_append, hab]
    exact h2
  | cons r rest ih =>
    obtain ⟨hr, hlt, hrest⟩ := h1
    exact ⟨hr, hlt, ih hrest⟩

theorem isChain_le {l : List (Nat × Nat)} {a b : Nat} (h : isChain l a b) : a ≤ b := by
  induction l generalizing a with
  | nil => exact Nat.le_of_eq h
  | cons r rest ih =>
    obtain ⟨-, hlt, hrest⟩ := h
    exact le_trans (le_of_lt hlt) (ih hrest)

theorem coverCount_cons (r : Nat × Nat) (rest : List (Nat × Nat)) (i : Nat) :
    coverCount (r :: rest) i
      = (if r.1 ≤ i ∧ i < r.2 then 1 else 0) + coverCount rest i := by
  by_cases h : r.1 ≤ i ∧ i < r.2 <;>
    simp [coverCount, List.filter_cons, h, Nat.add_comm]

/-- A chain of ranges from a to b covers each index in [a, b) exactly once and
covers nothing outside it. -/
theorem isChain_coverCount {l : List (Nat × Nat)} {a b : Nat} (h : isChain l a b)
    (i : Nat) : coverCount l i = if a ≤ i ∧ i < b then 1 else 0 := by
  induction l generalizing a with
  | nil =>
    have hab : a = b := h
    subst hab
    have h0 : coverCount [] i = 0 := rfl
    rw [h0]
    split_ifs with hc
    · omega
    · rfl
  | cons r rest ih =>
    obtain ⟨hr, hlt, hrest⟩ := h
    have hle : r.2 ≤ b := isChain_le hrest
    rw [coverCount_cons, ih hrest]
    subst hr
    split_ifs <;> omega

/-- The eventual scans of descriptor (c, p) tile its interval
[(c-1)*2^p, c*2^p) exactly. -/
theorem sliceScans_chain (stride : Nat) :
    ∀ p c, 1 ≤ c →
      isChain (sliceScans stride c p) ((c - 1) * 2 ^ p) (c * 2 ^ p) := by
  intro p
  induction p with
  | zero =>
    intro c hc
    refine ⟨by simp, by simp; omega, by simp [isChain]⟩
  | succ p ih =>
    intro c hc
    rw [sliceScans]
    split_ifs with hg
    · have h1 := ih (c * 2 - 1) (by omega)
      have h2 := ih (c * 2) (by omega)
      have e0 : c * 2 - 1 - 1 = (c - 1) * 2 := by omega
      have e1 : (c * 2 - 1 - 1) * 2 ^ p = (c - 1) * 2 ^ (p + 1) := by
        rw [e0, pow_succ]; ring
      have e2 : c * 2 * 2 ^ p = c * 2 ^ (p + 1) := by
        rw [pow_succ]; ring
      have := isChain_append h1 h2
      rw [e1, e2] at this
      exact this
    · refine ⟨rfl, ?_, rfl⟩
      exact mul_lt_mul_of_pos_right (by omega) (by positivity)

/-- Invariant of the process_obj splitting loop: starting from a state whose
last_idx is the left endpoint (c-1)*2^p of the current chunk and lies inside the
array, the eventual scans of all pushed descriptors form a chain from last_idx
to the final last_idx, which again lies inside the array. -/
theorem objLoop_chain (stride len : Nat) :
    ∀ p c last, 1 ≤ c → last = (c - 1) * 2 ^ p → last < len →
      isChain ((objLoop stride len c p last).1.flatMap fun d => sliceScans stride d.1 d.2)
          last (objLoop stride len c p last).2 ∧
        (objLoop stride len c p last).2 < len := by
  intro p
  induction p with
  | zero =>
    intro c last hc hlast hlt
    exact ⟨rfl, hlt⟩
  | succ p ih =>
    intro c last hc hlast hlt
    rw [objLoop]
    split_ifs with hg hpush
    · have hA := sliceScans_chain stride p (c * 2 - 1) (by omega)
      have e0 : c * 2 - 1 - 1 = (c - 1) * 2 := by omega
      have e1 : (c * 2 - 1 - 1) * 2 ^ p = last := by
        rw [e0, hlast, pow_succ]; ring
      rw [e1] at hA
      have hB := ih (c * 2) ((c * 2 - 1) * 2 ^ p) (by omega) rfl hpush
      refine ⟨?_, hB.2⟩
      rw [List.flatMap_cons]
      exact isChain_append hA hB.1
    · have e1 : last = (c * 2 - 1 - 1) * 2 ^ p := by
        have e0 : c * 2 - 1 - 1 = (c - 1) * 2 := by omega
        rw [e0, hlast, pow_succ]; ring
      exact ih (c * 2 - 1) last (by omega) e1 hlt
    · exact ⟨rfl, hlt⟩

/-- When the computed covering power reaches 31 the array is strictly longer
than 2^30. -/
theorem arrayBits_ge31_imp (len : Nat) (hl : 0 < len) (h : 31 ≤ arrayBits len) :
    2 ^ 30 < len := by
  rw [arrayBits] at h
  split_ifs at h with he
  · calc (2 : Nat) ^ 30 < 2 ^ 31 := by norm_num
      _ ≤ 2 ^ Nat.log2 len := Nat.pow_le_pow_right (by norm_num) h
      _ = len := he.symm
  · have h30 : 30 ≤ Nat.log2 len := by omega
    have hle : 2 ^ Nat.log2 len ≤ len := Nat.log2_self_le (by omega)
    have hge : 2 ^ 30 ≤ len :=
      le_trans (Nat.pow_le_pow_right (by norm_num) h30) hle
    rcases Nat.lt_or_ge (2 ^ 30) len with h' | h'
    · exact h'
    · exfalso
      apply he
      have hlen : len = 2 ^ 30 := le_antisymm h' hge
      rw [hlen, Nat.log2_eq_log_two, Nat.log_pow (by norm_num)]

/-- Exact value of arrayBits for a length strictly between consecutive powers
of two. -/
theorem arrayBits_of_between (len b : Nat) (h1 : 2 ^ b ≤ len)
    (h2 : len < 2 ^ (b + 1)) (h3 : len ≠ 2 ^ b) : arrayBits len = b + 1 := by
  have hlog : Nat.log2 len = b := by
    rw [Nat.log2_eq_log_two]
    exact Nat.log_eq_of_pow_le_of_lt_pow h1 h2
  rw [arrayBits, hlog, if_neg h3]

end G1CMObjArrayProcessor

namespace G1CMObjArrayProcessor

/-- The full scan multiset of process_obj forms a chain from 0 to len: the
pushed descriptors' eventual scans tile [0, last_idx) and the irregular tail
(always non-empty, as only strictly interior boundaries are recorded) tiles
[last_idx, len). -/
theorem processObjScans_chain (stride len : Nat) (hl : 0 < len) :
    isChain (processObjScans stride len) 0 len := by
  have hmain :
      isChain ((process_obj stride len).1.flatMap fun d => sliceScans stride d.1 d.2)
          0 (process_obj stride len).2 ∧
        (process_obj stride len).2 < len := by
    rw [process_obj]
    split_ifs with hb
    · have h30 : 2 ^ 30 < len := arrayBits_ge31_imp len hl hb
      have hA := sliceScans_chain stride 30 1 (le_refl 1)
      norm_num at hA
      have hB := objLoop_chain stride len 30 2 (2 ^ 30) (by norm_num) (by norm_num) h30
      refine ⟨?_, hB.2⟩
      rw [List.flatMap_cons]
      exact isChain_append hA hB.1
    · exact objLoop_chain stride len (arrayBits len) 1 0 (le_refl 1) (by simp) hl
  have htail : isChain [((process_obj stride len).2, len)] (process_obj stride len).2 len :=
    ⟨rfl, hmain.2, rfl⟩
  rw [processObjScans, if_pos hmain.2]
  exact isChain_append hmain.1 htail

/-- Claim C1: for every positive array length and positive minimum stride, the
multiset of ranges eventually scanned — the irregular tail scanned directly by
process_obj plus, for every descriptor pushed to the queue, the range scanned
by process_slice after its own further splitting — partitions [0, len) exactly:
each index below len is covered by exactly one range and no range covers any
index at or beyond len. -/
theorem process_obj_coverage (stride len i : Nat) (hs : 0 < stride) (hl : 0 < len) :
    coverCount (processObjScans stride len) i = if i < len then 1 else 0 := by
  have h := isChain_coverCount (processObjScans_chain stride len hl) i
  simpa using h

/-- Witness for process_obj_coverage at stride 16, length 1000, index 999. -/
theorem process_obj_coverage_witness :
    coverCount (processObjScans 16 1000) 999 = if 999 < 1000 then 1 else 0 :=
  process_obj_coverage 16 1000 999 (by norm_num) (by norm_num)

/-- Every descriptor pushed by the process_obj loop has a chunk number in
[1, chunk_size) and denotes a full chunk strictly inside the array. -/
theorem objLoop_pushes (stride len : Nat) :
    ∀ p c last, 1 ≤ c →
      ∀ d ∈ (objLoop stride len c p last).1,
        1 ≤ d.1 ∧ d.1 < G1TaskQueueEntry.chunk_size ∧ d.1 * 2 ^ d.2 < len := by
  have hcs : G1TaskQueueEntry.chunk_size = 1024 := by decide
  intro p
  induction p with
  | zero =>
    intro c last hc d hd
    simp [objLoop] at hd
  | succ p ih =>
    intro c last hc d hd
    rw [objLoop] at hd
    split_ifs at hd with hg hpush
    · simp only [List.mem_cons] at hd
      rcases hd with rfl | hd
      · exact ⟨by omega, by omega, hpush⟩
      · exact ih (c * 2) _ (by omega) d hd
    · exact ih (c * 2 - 1) last (by omega) d hd
    · simp at hd

/-- Claim C3: when the covering power equals the maximum representable exponent
31, process_obj pre-splits exactly once before the normal halving loop: the
push list is (1, 30) followed by the pushes of the loop started at chunk = 2,
pow = 30, with last_idx = 2^30 recorded as the prefix boundary, and every chunk
number pushed stays within the 10-bit chunk-count capacity. -/
theorem process_obj_overflow_presplit (stride len : Nat) (hs : 0 < stride)
    (hb : arrayBits len = 31) :
    process_obj stride len
      = ((1, 30) :: (objLoop stride len 2 30 (2 ^ 30)).1,
          (objLoop stride len 2 30 (2 ^ 30)).2) ∧
    ∀ d ∈ (process_obj stride len).1,
      1 ≤ d.1 ∧ d.1 < G1TaskQueueEntry.chunk_size := by
  have h1 : process_obj stride len
      = ((1, 30) :: (objLoop stride len 2 30 (2 ^ 30)).1,
          (objLoop stride len 2 30 (2 ^ 30)).2) := by
    rw [process_obj, hb, if_pos (by norm_num)]
  refine ⟨h1, ?_⟩
  intro d hd
  rw [h1] at hd
  simp only [List.mem_cons] at hd
  rcases hd with rfl | hd
  · constructor
    · norm_num
    · decide
  · have := objLoop_pushes stride len 30 2 (2 ^ 30) (by norm_num) d hd
    exact ⟨this.1, this.2.1⟩

/-- Witness for process_obj_overflow_presplit at stride 16 and the first length
whose covering power is 31, namely 2^30 + 1. -/
theorem process_obj_overflow_presplit_witness :
    process_obj 16 (2 ^ 30 + 1)
      = ((1, 30) :: (objLoop 16 (2 ^ 30 + 1) 2 30 (2 ^ 30)).1,
          (objLoop 16 (2 ^ 30 + 1) 2 30 (2 ^ 30)).2) ∧
    ∀ d ∈ (process_obj 16 (2 ^ 30 + 1)).1,
      1 ≤ d.1 ∧ d.1 < G1TaskQueueEntry.chunk_size :=
  process_obj_overflow_presplit 16 (2 ^ 30 + 1) (by norm_num)
    (arrayBits_of_between (2 ^ 30 + 1) 30 (by norm_num) (by norm_num) (by norm_num))

/-- Invariant of the process_slice splitting loop: chunk numbers stay at least 1,
the final chunk's right endpoint equals the initial chunk's right endpoint, and
every pushed descriptor denotes a sub-interval of the initial interval. -/
theorem sliceLoop_inv (stride : Nat) :
    ∀ p c, 1 ≤ c →
      1 ≤ (sliceLoop stride c p).2.1 ∧
      (sliceLoop stride c p).2.1 * 2 ^ (sliceLoop stride c p).2.2 = c * 2 ^ p ∧
      ∀ d ∈ (sliceLoop stride c p).1, 1 ≤ d.1 ∧ d.1 * 2 ^ d.2 ≤ c * 2 ^ p := by
  intro p
  induction p with
  | zero =>
    intro c hc
    refine ⟨hc, rfl, ?_⟩
    intro d hd
    simp [sliceLoop] at hd
  | succ p ih =>
    intro c hc
    obtain ⟨ha, hb, hp⟩ := ih (c * 2) (by omega)
    have hstep : c * 2 * 2 ^ p = c * 2 ^ (p + 1) := by rw [pow_succ]; ring
    rw [sliceLoop]
    split_ifs with hg
    · refine ⟨ha, by rw [hb, hstep], ?_⟩
      intro d hd
      simp only [List.mem_cons] at hd
      rcases hd with rfl | hd
      · refine ⟨by omega, ?_⟩
        calc (c * 2 - 1) * 2 ^ p ≤ c * 2 * 2 ^ p :=
              Nat.mul_le_mul_right _ (by omega)
          _ = c * 2 ^ (p + 1) := hstep
      · obtain ⟨hd1, hd2⟩ := hp d hd
        exact ⟨hd1, by rw [← hstep]; exact hd2⟩
    · refine ⟨hc, rfl, ?_⟩
      intro d hd
      simp at hd

/-- Claim C9: every descriptor pushed by process_obj or by process_slice (when
run on a descriptor (c, p) satisfying the invariant, i.e. a full chunk of the
array) again denotes a full chunk [(chunk-1)*2^pow, chunk*2^pow) contained in
[0, len), and the [from, to) range process_slice finally scans satisfies
from < len and 0 < to <= len, without ever consulting len. -/
theorem queue_full_chunk_invariant (stride len c p : Nat) (hs : 0 < stride)
    (hl : 0 < len) (hc : 1 ≤ c) (hcov : c * 2 ^ p ≤ len) :
    (∀ d ∈ (process_obj stride len).1, 1 ≤ d.1 ∧ d.1 * 2 ^ d.2 ≤ len) ∧
    (∀ d ∈ (process_slice stride c p).1, 1 ≤ d.1 ∧ d.1 * 2 ^ d.2 ≤ len) ∧
    (process_slice stride c p).2.1 < len ∧
    0 < (process_slice stride c p).2.2 ∧
    (process_slice stride c p).2.2 ≤ len := by
  obtain ⟨ha, hb, hp⟩ := sliceLoop_inv stride p c hc
  have hfin :
      (process_slice stride c p).2.1
          = ((sliceLoop stride c p).2.1 - 1) * 2 ^ (sliceLoop stride c p).2.2 ∧
        (process_slice stride c p).2.2
          = (sliceLoop stride c p).2.1 * 2 ^ (sliceLoop stride c p).2.2 ∧
        (process_slice stride c p).1 = (sliceLoop stride c p).1 := by
    rw [process_slice]
    exact ⟨rfl, rfl, rfl⟩
  refine ⟨?_, ?_, ?_, ?_, ?_⟩
  · intro d hd
    rw [process_obj] at hd
    split_ifs at hd with hbits
    · simp only [List.mem_cons] at hd
      rcases hd with rfl | hd
      · exact ⟨by norm_num, le_of_lt (arrayBits_ge31_imp len hl hbits)⟩
      · have := objLoop_pushes stride len 30 2 (2 ^ 30) (by norm_num) d hd
        exact ⟨this.1, le_of_lt this.2.2⟩
    · have := objLoop_pushes stride len (arrayBits len) 1 0 (by norm_num) d hd
      exact ⟨this.1, le_of_lt this.2.2⟩
  · intro d hd
    rw [hfin.2.2] at hd
    obtain ⟨hd1, hd2⟩ := hp d hd
    exact ⟨hd1, le_trans hd2 hcov⟩
  · rw [hfin.1]
    calc ((sliceLoop stride c p).2.1 - 1) * 2 ^ (sliceLoop stride c p).2.2
        < (sliceLoop stride c p).2.1 * 2 ^ (sliceLoop stride c p).2.2 :=
          mul_lt_mul_of_pos_right (by omega) (by positivity)
      _ = c * 2 ^ p := hb
      _ ≤ len := hcov
  · rw [hfin.2.1, hb]
    positivity
  · rw [hfin.2.1, hb]
    exact hcov

/-- Witness for queue_full_chunk_invariant at stride 16, length 1000 and the
popped descriptor (1, 2). -/
theorem queue_full_chunk_invariant_witness :
    (∀ d ∈ (process_obj 16 1000).1, 1 ≤ d.1 ∧ d.1 * 2 ^ d.2 ≤ 1000) ∧
    (∀ d ∈ (process_slice 16 1 2).1, 1 ≤ d.1 ∧ d.1 * 2 ^ d.2 ≤ 1000) ∧
    (process_slice 16 1 2).2.1 < 1000 ∧
    0 < (process_slice 16 1 2).2.2 ∧
    (process_slice 16 1 2).2.2 ≤ 1000 :=
  queue_full_chunk_invariant 16 1000 1 2 (by norm_num) (by norm_num) (by norm_num)
    (by norm_num)

end G1CMObjArrayProcessor

namespace MarkSweep

/-- Claim C5: adjust_pointer leaves a null slot unchanged; for a non-null slot
it overwrites the slot with the forwarding map's target exactly when the
referent's header is marked and leaves the slot unchanged otherwise; headers
and the forwarding map are never modified, nor is any other slot. -/
theorem adjust_pointer_spec (h : AdjustHeap) (p q : Nat) :
    (adjust_pointer h p).markBit = h.markBit ∧
    (adjust_pointer h p).forwardee = h.forwardee ∧
    (h.mem p = 0 → (adjust_pointer h p).mem p = h.mem p) ∧
    (h.mem p ≠ 0 → h.markBit (h.mem p) = true →
      (adjust_pointer h p).mem p = h.forwardee (h.mem p)) ∧
    (h.mem p ≠ 0 → h.markBit (h.mem p) = false →
      (adjust_pointer h p).mem p = h.mem p) ∧
    (q ≠ p → (adjust_pointer h p).mem q = h.mem q) := by
  simp only [adjust_pointer]
  split_ifs with h0 hm
  · exact ⟨rfl, rfl, fun _ => rfl, fun hne _ => absurd h0 hne,
      fun hne _ => absurd h0 hne, fun _ => rfl⟩
  · refine ⟨rfl, rfl, fun he => absurd he h0, fun _ _ => ?_, fun _ hf => ?_, fun hq => ?_⟩
    · simp
    · rw [hm] at hf
      cases hf
    · simp [hq]
  · exact ⟨rfl, rfl, fun he => absurd he h0,
      fun _ ht => absurd ht hm, fun _ _ => rfl, fun _ => rfl⟩

/-- Witness for adjust_pointer_spec: a marked non-null referent is redirected to
its forwardee, and a null slot is untouched. -/
theorem adjust_pointer_spec_witness :
    (adjust_pointer ⟨fun _ => 4, fun _ => true, fun _ => 12⟩ 0).mem 0 = 12 ∧
    (adjust_pointer ⟨fun _ => 0, fun _ => true, fun _ => 12⟩ 0).mem 0 = 0 := by
  constructor
  · exact (adjust_pointer_spec ⟨fun _ => 4, fun _ => true, fun _ => 12⟩ 0 1).2.2.2.1
      (by decide) rfl
  · exact (adjust_pointer_spec ⟨fun _ => 0, fun _ => true, fun _ => 12⟩ 0 1).2.2.1 rfl

end MarkSweep

namespace GenMarkSweep

/-- Claim C4: after the Move phase, the orchestrator clears the card table into
the older generation exactly when the young generation's post-collection used()
is zero and otherwise invalidates-or-clears it; the used regions are saved
before Mark starts and before the card decision is consulted. -/
theorem card_table_policy (u : Nat) :
    (invoke_at_safepoint u).count
        (if u = 0 then GCStep.clearIntoYounger else GCStep.invalidateOrClear) = 1 ∧
    (invoke_at_safepoint u).count
        (if u = 0 then GCStep.invalidateOrClear else GCStep.clearIntoYounger) = 0 ∧
    List.indexOf GCStep.phase4Move (invoke_at_safepoint u)
      < List.indexOf (if u = 0 then GCStep.clearIntoYounger else GCStep.invalidateOrClear)
          (invoke_at_safepoint u) ∧
    List.indexOf GCStep.saveUsedRegions (invoke_at_safepoint u)
      < List.indexOf GCStep.phase1Mark (invoke_at_safepoint u) ∧
    List.indexOf GCStep.saveUsedRegions (invoke_at_safepoint u)
      < List.indexOf (if u = 0 then GCStep.clearIntoYounger else GCStep.invalidateOrClear)
          (invoke_at_safepoint u) := by
  by_cases h : u = 0
  · subst h
    decide
  · simp only [invoke_at_safepoint, if_neg h]
    decide

/-- Claim C6: one collection runs Mark, Plan, Adjust, Move strictly in that
order, each exactly once; the preserved marks are restored only after Move
completes and the scratch stacks are deallocated after the restoration. -/
theorem phase_ordering (u : Nat) :
    (invoke_at_safepoint u).count GCStep.phase1Mark = 1 ∧
    (invoke_at_safepoint u).count GCStep.phase2Plan = 1 ∧
    (invoke_at_safepoint u).count GCStep.phase3Adjust = 1 ∧
    (invoke_at_safepoint u).count GCStep.phase4Move = 1 ∧
    (invoke_at_safepoint u).count GCStep.restoreMarks = 1 ∧
    (invoke_at_safepoint u).count GCStep.deallocateStacks = 1 ∧
    List.indexOf GCStep.phase1Mark (invoke_at_safepoint u)
      < List.indexOf GCStep.phase2Plan (invoke_at_safepoint u) ∧
    List.indexOf GCStep.phase2Plan (invoke_at_safepoint u)
      < List.indexOf GCStep.phase3Adjust (invoke_at_safepoint u) ∧
    List.indexOf GCStep.phase3Adjust (invoke_at_safepoint u)
      < List.indexOf GCStep.phase4Move (invoke_at_safepoint u) ∧
    List.indexOf GCStep.phase4Move (invoke_at_safepoint u)
      < List.indexOf GCStep.restoreMarks (invoke_at_safepoint u) ∧
    List.indexOf GCStep.restoreMarks (invoke_at_safepoint u)
      < List.indexOf GCStep.deallocateStacks (invoke_at_safepoint u) := by
  by_cases h : u = 0
  · subst h
    decide
  · simp only [invoke_at_safepoint, if_neg h]
    decide

/-- Claim C7, counterexample: in mark_sweep_phase1 the marking-stack emptiness
assertion does not precede reference processing — it sits after it — so the
claimed fatal check point (after root following, before reference processing)
does not match the code. -/
theorem phase1_check_not_before_refproc :
    mark_sweep_phase1 true = Except.ok phase1Trace ∧
    ¬ List.indexOf MarkStep.assertMarkingStackEmpty phase1Trace
        < List.indexOf MarkStep.referenceProcessing phase1Trace := by
  exact ⟨rfl, by decide⟩

/-- Claim C7 as amended: the marking-stack emptiness assertion of
mark_sweep_phase1 sits after reference processing completes (the point where
the entire marking should have completed) and before weak processing; a
non-empty stack there is fatal — the phase aborts and weak processing is never
reached. -/
theorem phase1_check_after_refproc (stackEmpty : Bool) :
    mark_sweep_phase1 stackEmpty
      = (if stackEmpty then Except.ok phase1Trace
          else Except.error phase1AbortedTrace) ∧
    List.indexOf MarkStep.referenceProcessing phase1Trace
      < List.indexOf MarkStep.assertMarkingStackEmpty phase1Trace ∧
    List.indexOf MarkStep.assertMarkingStackEmpty phase1Trace
      < List.indexOf MarkStep.weakProcessing phase1Trace ∧
    MarkStep.weakProcessing ∉ phase1AbortedTrace ∧
    List.indexOf MarkStep.referenceProcessing phase1AbortedTrace
      < List.indexOf MarkStep.assertMarkingStackEmpty phase1AbortedTrace := by
  cases stackEmpty <;> exact ⟨rfl, by decide, by decide, by decide, by decide⟩

/-- Claim C10: with no scratch block available, allocate_stacks reports no
error: it simply sets the fast-path capacity and count to zero, and every
subsequently preserved mark goes to the unbounded overflow store. -/
theorem allocate_stacks_fallback (st : PreservedState) (obj mark : Nat) :
    (allocate_stacks none).preserved_count_max = 0 ∧
    (allocate_stacks none).preserved_count = 0 ∧
    (allocate_stacks none).preserved_overflow_stack = [] ∧
    (st.preserved_count_max = 0 →
      preserve_mark st obj mark
        = { st with
            preserved_overflow_stack := (obj, mark) :: st.preserved_overflow_stack }) := by
  refine ⟨rfl, rfl, rfl, ?_⟩
  intro h0
  rw [preserve_mark, if_neg (by omega)]

/-- Witness for allocate_stacks_fallback on the state produced by a failed
scratch request and the record (5, 7). -/
theorem allocate_stacks_fallback_witness :
    (allocate_stacks none).preserved_count_max = 0 ∧
    preserve_mark (allocate_stacks none) 5 7
      = { allocate_stacks none with preserved_overflow_stack := [(5, 7)] } := by
  have h := allocate_stacks_fallback (allocate_stacks none) 5 7
  exact ⟨h.1, h.2.2.2 h.1⟩

end GenMarkSweep
